import Mathlib

/-!
Shallow embedding of the feature-extraction-to-ensemble-evaluation pipeline
of `imwithroc.py` (image classification via ResNet50 features, a soft-voting
ensemble of LDA / tuned SVM / GaussianNB, and accuracy / confusion-matrix /
ROC evaluation).

Conventions:
* feature values and probabilities are rationals (`ℚ`); the source's
  floating-point arithmetic is modelled exactly, since the spec only fixes
  the pipeline logic, not float rounding;
* encoded class labels are natural numbers;
* fallible per-item feature extraction is modelled as `Except`;
* the sklearn/numpy routines the script calls are not part of the
  repository, so they are modelled from the spec (and, where the spec
  defers to them, from their documented behaviour); each such definition
  says so in its doc comment.
-/

namespace SkinDisease

/-! ## Dataset builder (source lines 44–57)

The script walks `(img_path, label)` pairs, extracts a deep-feature vector
for each, and appends `(vector, label)` to the parallel lists
`features` / `valid_labels`; an exception of any type while processing one
image is caught, logged, and only that sample is skipped. -/

/-- One pass of the extraction loop of lines 46–53: `ex` is the
per-image feature extractor (`extract_deep_features`), which may fail with
an error of arbitrary type `E` (the loop catches every `Exception`).
Returns the `features` and `valid_labels` accumulators, in order. -/
def buildDataset {Img E Feat Label : Type} (ex : Img → Except E Feat) :
    List (Img × Label) → List Feat × List Label
  | [] => ([], [])
  | (img, lab) :: rest =>
    let r := buildDataset ex rest
    match ex img with
    | Except.ok f => (f :: r.1, lab :: r.2)
    | Except.error _ => r

/-- The per-item success step: a pair is retained exactly when extraction
succeeds on its image. -/
def buildStep {Img E Feat Label : Type} (ex : Img → Except E Feat)
    (p : Img × Label) : Option (Feat × Label) :=
  match ex p.1 with
  | Except.ok f => some (f, p.2)
  | Except.error _ => none

/-! ## Evaluator (source lines 97–104)

`accuracy_score` and `confusion_matrix` over integer-encoded labels. -/

/-- Number of positions where the true and predicted labels match
(pairs beyond the shorter list are ignored, as in `zip`). -/
def matchCount (yTrue yPred : List ℕ) : ℕ :=
  (yTrue.zip yPred).countP (fun p => p.1 = p.2)

/-- Model of `accuracy_score(y_true, y_pred)`: the fraction of exactly matching
predictions. -/
def accuracy (yTrue yPred : List ℕ) : ℚ :=
  (matchCount yTrue yPred : ℚ) / (yTrue.length : ℚ)

/-- Model of `confusion_matrix(y_true, y_pred)` entry `(i, j)`: the number of
samples of true class `i` predicted as class `j`. -/
def confusionEntry (yTrue yPred : List ℕ) (i j : ℕ) : ℕ :=
  (yTrue.zip yPred).countP (fun p => p.1 = i ∧ p.2 = j)

/-- Sum of the diagonal entries of the `K × K` confusion matrix. -/
def confusionDiagSum (yTrue yPred : List ℕ) (K : ℕ) : ℕ :=
  ∑ i ∈ Finset.range K, confusionEntry yTrue yPred i i

/-! ## Label encoder (source lines 60–61 and 104–105)

Modelled from the spec: `sklearn.preprocessing.LabelEncoder` is not part of
this repository.  Per its documented behaviour (and the spec's §4.3
requirement of a deterministic ordering used consistently for decoding),
`fit` stores `classes_ = np.unique(labels)`, the distinct labels in
ascending (lexicographic, for strings) order; `transform` maps a label to
its position in `classes_`; `inverse_transform` indexes into `classes_`. -/

/-- The fitted `classes_` array: distinct labels sorted ascending. -/
def classesOf (labels : List String) : List String :=
  List.insertionSort (· ≤ ·) labels.dedup

/-- Encoder `transform` of a single label: its index in the sorted class list. -/
def leTransform (classes : List String) (l : String) : ℕ :=
  classes.indexOf l

/-- Encoder `inverse_transform` of a single index: `classes_[i]`. -/
def leInverse (classes : List String) (i : ℕ) : String :=
  classes.getD i ""

/-! ### Lemmas about the label encoder -/

theorem mem_classesOf {labels : List String} {l : String} :
    l ∈ classesOf labels ↔ l ∈ labels := by
  unfold classesOf
  rw [(List.perm_insertionSort (· ≤ ·) labels.dedup).mem_iff]
  exact List.mem_dedup

theorem classesOf_sorted (labels : List String) :
    (classesOf labels).Sorted (· < ·) := by
  refine List.Sorted.lt_of_le (List.sorted_insertionSort _ _) ?_
  exact (List.perm_insertionSort (· ≤ ·) labels.dedup).nodup_iff.mpr
    labels.nodup_dedup

theorem leInverse_leTransform {labels : List String} {l : String}
    (h : l ∈ labels) :
    leInverse (classesOf labels) (leTransform (classesOf labels) l) = l := by
  have hmem : l ∈ classesOf labels := mem_classesOf.mpr h
  have hlt : (classesOf labels).indexOf l < (classesOf labels).length :=
    List.indexOf_lt_length.mpr hmem
  unfold leInverse leTransform
  rw [List.getD_eq_getElem _ _ hlt]
  exact List.indexOf_get (l := classesOf labels) hlt

/-! ### Lemmas about the dataset builder -/

theorem buildDataset_eq_filterMap {Img E Feat Label : Type}
    (ex : Img → Except E Feat) (ps : List (Img × Label)) :
    (buildDataset ex ps).1.zip (buildDataset ex ps).2
      = ps.filterMap (buildStep ex) := by
  induction ps with
  | nil => rfl
  | cons p rest ih =>
    obtain ⟨img, lab⟩ := p
    simp only [buildDataset, buildStep]
    cases h : ex img with
    | ok f => simpa [buildDataset, buildStep, h] using ih
    | error e => simpa [buildDataset, buildStep, h] using ih

theorem buildDataset_lengths {Img E Feat Label : Type}
    (ex : Img → Except E Feat) (ps : List (Img × Label)) :
    (buildDataset ex ps).1.length = (buildDataset ex ps).2.length ∧
      (buildDataset ex ps).1.length ≤ ps.length := by
  induction ps with
  | nil => exact ⟨rfl, Nat.le_refl 0⟩
  | cons p rest ih =>
    obtain ⟨img, lab⟩ := p
    simp only [buildDataset]
    cases h : ex img with
    | ok f =>
      simp only [h, List.length_cons]
      exact ⟨by rw [ih.1], Nat.succ_le_succ ih.2⟩
    | error e =>
      simp only [h, List.length_cons]
      exact ⟨ih.1, Nat.le_succ_of_le ih.2⟩

/-! ### Lemmas about the evaluator -/

theorem sum_countP_diag {K : ℕ} (l : List (ℕ × ℕ)) (hK : ∀ p ∈ l, p.1 < K) :
    (∑ i ∈ Finset.range K, l.countP (fun p => p.1 = i ∧ p.2 = i))
      = l.countP (fun p => p.1 = p.2) := by
  induction l with
  | nil => simp
  | cons a l ih =>
    have ha : a.1 < K := hK a (List.mem_cons_self a l)
    have hl : ∀ p ∈ l, p.1 < K := fun p hp => hK p (List.mem_cons_of_mem a hp)
    simp only [List.countP_cons, decide_eq_true_eq]
    rw [Finset.sum_add_distrib, ih hl]
    congr 1
    by_cases hab : a.1 = a.2
    · simp only [← hab, and_self]
      rw [Finset.sum_ite_eq]
      simp [Finset.mem_range.mpr ha]
    · have hno : ∀ i : ℕ, ¬(a.1 = i ∧ a.2 = i) :=
        fun i h => hab (h.1.trans h.2.symm)
      simp [hno, hab]

theorem matchCount_le_length {yTrue yPred : List ℕ}
    (hlen : yTrue.length = yPred.length) :
    matchCount yTrue yPred ≤ yTrue.length := by
  refine le_trans (List.countP_le_length _) ?_
  rw [List.length_zip, hlen, Nat.min_self]

theorem confusionDiagSum_eq_matchCount {yTrue yPred : List ℕ} {K : ℕ}
    (hK : ∀ a ∈ yTrue, a < K) :
    confusionDiagSum yTrue yPred K = matchCount yTrue yPred := by
  unfold confusionDiagSum confusionEntry matchCount
  exact sum_countP_diag _ (fun p hp => hK p.1 (List.of_mem_zip hp).1)

/-! ## Claim theorems (dataset builder, encoder, evaluator) -/

/-- Claim C10: a failure of any error type while extracting features for
one image skips only that sample: the retained `(feature, label)` pairs are
exactly the successful extractions in input order, `features` and
`valid_labels` stay aligned one-to-one, and the dataset length is at most
the input length (the loop is a total function, so a per-item failure never
aborts the run). -/
theorem extraction_failure_skips_only_that_sample
    {Img E Feat Label : Type} (ex : Img → Except E Feat)
    (ps : List (Img × Label)) :
    (buildDataset ex ps).1.zip (buildDataset ex ps).2
        = ps.filterMap (buildStep ex) ∧
      (buildDataset ex ps).1.length = (buildDataset ex ps).2.length ∧
      (buildDataset ex ps).1.length ≤ ps.length :=
  ⟨buildDataset_eq_filterMap ex ps, (buildDataset_lengths ex ps).1,
    (buildDataset_lengths ex ps).2⟩

/-- Claim C7: for a fitted label encoder, `inverse_transform ∘ transform`
is the identity on any list of labels all seen during fit. -/
theorem label_encoder_roundtrip (labels ls : List String)
    (h : ∀ l ∈ ls, l ∈ labels) :
    (ls.map (leTransform (classesOf labels))).map
        (leInverse (classesOf labels)) = ls := by
  induction ls with
  | nil => rfl
  | cons x xs ih =>
    have hx : x ∈ labels := h x (List.mem_cons_self x xs)
    have hxs : ∀ l ∈ xs, l ∈ labels := fun l hl => h l (List.mem_cons_of_mem x hl)
    simp only [List.map_cons, List.cons.injEq]
    exact ⟨leInverse_leTransform hx, ih hxs⟩

theorem label_encoder_roundtrip_witness :
    (∀ l ∈ ["eczema", "acne"], l ∈ ["melanoma", "acne", "eczema"]) ∧
      ((["eczema", "acne"].map
          (leTransform (classesOf ["melanoma", "acne", "eczema"]))).map
        (leInverse (classesOf ["melanoma", "acne", "eczema"]))
          = ["eczema", "acne"]) :=
  ⟨by decide, label_encoder_roundtrip _ _ (by decide)⟩

/-- Claim C9: the label-to-index mapping is assigned in ascending
lexicographic order of the distinct labels: for labels `a`, `b` seen at fit
time, `index a < index b ↔ a < b`, and the decoded class-name sequence
(`le.classes_`) is strictly sorted and contains exactly the distinct labels
seen at fit time. -/
theorem label_encoding_is_sorted_order (labels : List String) (a b : String)
    (ha : a ∈ labels) (hb : b ∈ labels) :
    (leTransform (classesOf labels) a < leTransform (classesOf labels) b
        ↔ a < b) ∧
      (classesOf labels).Sorted (· < ·) ∧
      (∀ l, l ∈ classesOf labels ↔ l ∈ labels) := by
  refine ⟨?_, classesOf_sorted labels, fun _ => mem_classesOf⟩
  have hma : a ∈ classesOf labels := mem_classesOf.mpr ha
  have hmb : b ∈ classesOf labels := mem_classesOf.mpr hb
  have hla : (classesOf labels).indexOf a < (classesOf labels).length :=
    List.indexOf_lt_length.mpr hma
  have hlb : (classesOf labels).indexOf b < (classesOf labels).length :=
    List.indexOf_lt_length.mpr hmb
  have hs : StrictMono (classesOf labels).get :=
    (classesOf_sorted labels).get_strictMono
  have hab := hs.lt_iff_lt (a := ⟨_, hla⟩) (b := ⟨_, hlb⟩)
  rw [List.indexOf_get hla, List.indexOf_get hlb] at hab
  unfold leTransform
  exact ⟨fun h => hab.mpr h, fun h => hab.mp h⟩

theorem label_encoding_is_sorted_order_witness :
    "acne" ∈ ["melanoma", "acne", "eczema"] ∧
      "melanoma" ∈ ["melanoma", "acne", "eczema"] ∧
      ((leTransform (classesOf ["melanoma", "acne", "eczema"]) "acne"
            < leTransform (classesOf ["melanoma", "acne", "eczema"]) "melanoma"
          ↔ "acne" < "melanoma") ∧
        (classesOf ["melanoma", "acne", "eczema"]).Sorted (· < ·) ∧
        (∀ l, l ∈ classesOf ["melanoma", "acne", "eczema"]
          ↔ l ∈ ["melanoma", "acne", "eczema"])) :=
  ⟨by decide, by decide,
    label_encoding_is_sorted_order _ _ _ (by decide) (by decide)⟩

/-- Claim C8: for equal-length `y_true`, `y_pred` with true labels in
`[0, K)`, accuracy is the matching fraction and lies in `[0, 1]`, and the
confusion-matrix diagonal sum equals `accuracy × len(y_true)`. -/
theorem accuracy_and_confusion_diag (yTrue yPred : List ℕ) (K : ℕ)
    (hlen : yTrue.length = yPred.length) (hK : ∀ a ∈ yTrue, a < K) :
    0 ≤ accuracy yTrue yPred ∧ accuracy yTrue yPred ≤ 1 ∧
      (confusionDiagSum yTrue yPred K : ℚ)
        = accuracy yTrue yPred * (yTrue.length : ℚ) := by
  have hmc : matchCount yTrue yPred ≤ yTrue.length := matchCount_le_length hlen
  refine ⟨div_nonneg (Nat.cast_nonneg _) (Nat.cast_nonneg _), ?_, ?_⟩
  · by_cases hn : yTrue.length = 0
    · simp [accuracy, hn]
    · exact div_le_one_of_le₀ (by exact_mod_cast hmc) (Nat.cast_nonneg _)
  · rw [confusionDiagSum_eq_matchCount hK]
    by_cases hn : yTrue.length = 0
    · have h0 : matchCount yTrue yPred = 0 := Nat.le_zero.mp (hn ▸ hmc)
      simp [accuracy, h0, hn]
    · have hq : (yTrue.length : ℚ) ≠ 0 := Nat.cast_ne_zero.mpr hn
      rw [accuracy, div_mul_cancel₀ _ hq]

theorem accuracy_and_confusion_diag_witness :
    ([0, 1, 2, 1] : List ℕ).length = ([0, 2, 2, 1] : List ℕ).length ∧
      (∀ a ∈ ([0, 1, 2, 1] : List ℕ), a < 3) ∧
      (0 ≤ accuracy [0, 1, 2, 1] [0, 2, 2, 1] ∧
        accuracy [0, 1, 2, 1] [0, 2, 2, 1] ≤ 1 ∧
        (confusionDiagSum [0, 1, 2, 1] [0, 2, 2, 1] 3 : ℚ)
          = accuracy [0, 1, 2, 1] [0, 2, 2, 1]
              * (([0, 1, 2, 1] : List ℕ).length : ℚ)) :=
  ⟨by decide, by decide,
    accuracy_and_confusion_diag _ _ _ (by decide) (by decide)⟩

/-! ## Ensemble classifier (source lines 87–97, 110)

Modelled from the spec: `sklearn.ensemble.VotingClassifier` is not part of
this repository.  With `voting='soft'` and no weights, its documented
behaviour is: `fit(X, y)` fits a *clone* of every constituent estimator on
`(X, y)`; `predict_proba(X)` is the unweighted arithmetic mean of the
constituents' per-class probability rows; `predict(X)` is the argmax of
the averaged row, first occurrence winning ties (numpy `argmax`). -/

/-- Componentwise arithmetic mean of a list of probability rows, each read
at class indices `0, …, K-1` (missing entries read as `0`). -/
def meanProba (ps : List (List ℚ)) (K : ℕ) : List ℚ :=
  (List.range K).map (fun j => (ps.map (fun p => p.getD j 0)).sum / (ps.length : ℚ))

/-- Soft-voting `predict_proba` for one sample: the arithmetic mean of the
constituent classifiers' probability rows. -/
def ensemblePredictProba {X : Type} (clfs : List (X → List ℚ)) (K : ℕ)
    (x : X) : List ℚ :=
  meanProba (clfs.map (fun c => c x)) K

/-- Index of the first maximum of a list (numpy `argmax`: a later element
replaces the current best only when strictly larger; `0` on `[]`). -/
def argmax : List ℚ → ℕ
  | [] => 0
  | [_] => 0
  | x :: y :: ys =>
    if x < (y :: ys).getD (argmax (y :: ys)) 0 then argmax (y :: ys) + 1 else 0

/-- Soft-voting `predict` for one sample: argmax of the averaged row. -/
def ensemblePredict {X : Type} (clfs : List (X → List ℚ)) (K : ℕ)
    (x : X) : ℕ :=
  argmax (ensemblePredictProba clfs K x)

/-! ### Lemmas about argmax and the averaged row -/

theorem argmax_spec (l : List ℚ) (h : l ≠ []) :
    argmax l < l.length ∧
      (∀ j, j < l.length → l.getD j 0 ≤ l.getD (argmax l) 0) ∧
      (∀ j, j < argmax l → l.getD j 0 < l.getD (argmax l) 0) := by
  induction l with
  | nil => exact absurd rfl h
  | cons x xs ih =>
    cases xs with
    | nil =>
      refine ⟨Nat.zero_lt_one, fun j hj => ?_,
        fun j hj => absurd hj (Nat.not_lt_zero j)⟩
      have hj0 : j = 0 := Nat.lt_one_iff.mp hj
      subst hj0
      exact le_refl _
    | cons y ys =>
      obtain ⟨ihlt, ihmax, ihfirst⟩ := ih (by simp)
      by_cases hx : x < (y :: ys).getD (argmax (y :: ys)) 0
      · have harg : argmax (x :: y :: ys) = argmax (y :: ys) + 1 := by
          show (if x < (y :: ys).getD (argmax (y :: ys)) 0
            then argmax (y :: ys) + 1 else 0) = argmax (y :: ys) + 1
          rw [if_pos hx]
        rw [harg]
        refine ⟨Nat.succ_lt_succ ihlt, ?_, ?_⟩
        · intro j hj
          cases j with
          | zero =>
            rw [List.getD_cons_zero, List.getD_cons_succ]
            exact le_of_lt hx
          | succ j' =>
            rw [List.getD_cons_succ, List.getD_cons_succ]
            exact ihmax j' (Nat.lt_of_succ_lt_succ hj)
        · intro j hj
          cases j with
          | zero =>
            rw [List.getD_cons_zero, List.getD_cons_succ]
            exact hx
          | succ j' =>
            rw [List.getD_cons_succ, List.getD_cons_succ]
            exact ihfirst j' (Nat.lt_of_succ_lt_succ hj)
      · have harg : argmax (x :: y :: ys) = 0 := by
          show (if x < (y :: ys).getD (argmax (y :: ys)) 0
            then argmax (y :: ys) + 1 else 0) = 0
          rw [if_neg hx]
        rw [harg]
        refine ⟨Nat.succ_pos _, ?_, fun j hj => absurd hj (Nat.not_lt_zero j)⟩
        intro j hj
        cases j with
        | zero => exact le_refl _
        | succ j' =>
          rw [List.getD_cons_succ, List.getD_cons_zero]
          exact le_trans (ihmax j' (Nat.lt_of_succ_lt_succ hj)) (not_lt.mp hx)

theorem getD_map_range {f : ℕ → ℚ} {K j : ℕ} (h : j < K) :
    ((List.range K).map f).getD j 0 = f j := by
  rw [List.getD_eq_getElem _ _ (by simpa using h)]
  simp

theorem length_meanProba (ps : List (List ℚ)) (K : ℕ) :
    (meanProba ps K).length = K := by
  simp [meanProba]

theorem meanProba_three (p q r : List ℚ) {K j : ℕ} (h : j < K) :
    (meanProba [p, q, r] K).getD j 0
      = (p.getD j 0 + q.getD j 0 + r.getD j 0) / 3 := by
  unfold meanProba
  rw [getD_map_range h]
  norm_num [add_assoc]

/-- The spec's worked example: three constituent classifiers that always
output `[0.9, 0.05, 0.05]`, `[0.1, 0.8, 0.1]` and `[0.0, 0.0, 1.0]`. -/
def exampleClfs : List (Unit → List ℚ) :=
  [fun _ => [9/10, 1/20, 1/20], fun _ => [1/10, 8/10, 1/10],
    fun _ => [0, 0, 1]]

/-- Claim C1: for any trained three-constituent soft-voting ensemble and
any sample, `predict_proba` is the arithmetic mean of the constituents'
per-class rows and `predict` is the index of the maximum averaged
probability with ties broken by lowest index; on the spec's worked example
the average is `[1/3, 17/60, 23/60]` (which rounds to
`[0.333, 0.283, 0.383]` within `1/1000`) and `predict` returns class 2. -/
theorem soft_vote_mean_argmax {X : Type} (a b c : X → List ℚ) (x : X)
    (K : ℕ) (hK : 0 < K) :
    (∀ j, j < K → (ensemblePredictProba [a, b, c] K x).getD j 0
        = ((a x).getD j 0 + (b x).getD j 0 + (c x).getD j 0) / 3) ∧
      (ensemblePredict [a, b, c] K x < K ∧
        (∀ j, j < K → (ensemblePredictProba [a, b, c] K x).getD j 0
            ≤ (ensemblePredictProba [a, b, c] K x).getD
                (ensemblePredict [a, b, c] K x) 0) ∧
        (∀ j, j < ensemblePredict [a, b, c] K x →
          (ensemblePredictProba [a, b, c] K x).getD j 0
            < (ensemblePredictProba [a, b, c] K x).getD
                (ensemblePredict [a, b, c] K x) 0)) ∧
      ensemblePredictProba exampleClfs 3 () = [1/3, 17/60, 23/60] ∧
      ensemblePredict exampleClfs 3 () = 2 ∧
      |(1 : ℚ)/3 - 333/1000| ≤ 1/1000 ∧
      |(17 : ℚ)/60 - 283/1000| ≤ 1/1000 ∧
      |(23 : ℚ)/60 - 383/1000| ≤ 1/1000 := by
  have hlen : (ensemblePredictProba [a, b, c] K x).length = K :=
    length_meanProba _ _
  have hne : ensemblePredictProba [a, b, c] K x ≠ [] := by
    intro hnil
    rw [hnil] at hlen
    exact absurd hlen.symm (Nat.ne_of_gt hK)
  obtain ⟨hlt, hmax, hfirst⟩ := argmax_spec _ hne
  have h1 : ensemblePredictProba exampleClfs 3 () = [1/3, 17/60, 23/60] := by
    norm_num [ensemblePredictProba, meanProba, exampleClfs, List.range_succ]
  have h2 : ensemblePredict exampleClfs 3 () = 2 := by
    unfold ensemblePredict
    rw [h1]
    norm_num [argmax]
  refine ⟨?_, ⟨?_, ?_, ?_⟩, h1, h2, by rw [abs_le]; constructor <;> norm_num,
    by rw [abs_le]; constructor <;> norm_num,
    by rw [abs_le]; constructor <;> norm_num⟩
  · intro j hj
    simp only [ensemblePredictProba, List.map_cons, List.map_nil]
    exact meanProba_three _ _ _ hj
  · show argmax (ensemblePredictProba [a, b, c] K x) < K
    conv_rhs => rw [← hlen]
    exact hlt
  · intro j hj
    refine hmax j ?_
    rw [hlen]
    exact hj
  · intro j hj
    exact hfirst j hj

theorem soft_vote_mean_argmax_witness :
    (0 : ℕ) < 3 ∧
      ((∀ j, j < 3 →
          (ensemblePredictProba
              [fun _ : Unit => ([9/10, 1/20, 1/20] : List ℚ),
                fun _ => [1/10, 8/10, 1/10], fun _ => [0, 0, 1]] 3 ()).getD j 0
            = (([9/10, 1/20, 1/20] : List ℚ).getD j 0
                + ([1/10, 8/10, 1/10] : List ℚ).getD j 0
                + ([0, 0, 1] : List ℚ).getD j 0) / 3) ∧
        (ensemblePredict
            [fun _ : Unit => ([9/10, 1/20, 1/20] : List ℚ),
              fun _ => [1/10, 8/10, 1/10], fun _ => [0, 0, 1]] 3 () < 3 ∧
          (∀ j, j < 3 →
            (ensemblePredictProba
                [fun _ : Unit => ([9/10, 1/20, 1/20] : List ℚ),
                  fun _ => [1/10, 8/10, 1/10],
                  fun _ => [0, 0, 1]] 3 ()).getD j 0
              ≤ (ensemblePredictProba
                  [fun _ : Unit => ([9/10, 1/20, 1/20] : List ℚ),
                    fun _ => [1/10, 8/10, 1/10],
                    fun _ => [0, 0, 1]] 3 ()).getD
                  (ensemblePredict
                    [fun _ : Unit => ([9/10, 1/20, 1/20] : List ℚ),
                      fun _ => [1/10, 8/10, 1/10],
                      fun _ => [0, 0, 1]] 3 ()) 0) ∧
          (∀ j, j < ensemblePredict
              [fun _ : Unit => ([9/10, 1/20, 1/20] : List ℚ),
                fun _ => [1/10, 8/10, 1/10], fun _ => [0, 0, 1]] 3 () →
            (ensemblePredictProba
                [fun _ : Unit => ([9/10, 1/20, 1/20] : List ℚ),
                  fun _ => [1/10, 8/10, 1/10],
                  fun _ => [0, 0, 1]] 3 ()).getD j 0
              < (ensemblePredictProba
                  [fun _ : Unit => ([9/10, 1/20, 1/20] : List ℚ),
                    fun _ => [1/10, 8/10, 1/10],
                    fun _ => [0, 0, 1]] 3 ()).getD
                  (ensemblePredict
                    [fun _ : Unit => ([9/10, 1/20, 1/20] : List ℚ),
                      fun _ => [1/10, 8/10, 1/10],
                      fun _ => [0, 0, 1]] 3 ()) 0)) ∧
        ensemblePredictProba exampleClfs 3 () = [1/3, 17/60, 23/60] ∧
        ensemblePredict exampleClfs 3 () = 2 ∧
        |(1 : ℚ)/3 - 333/1000| ≤ 1/1000 ∧
        |(17 : ℚ)/60 - 283/1000| ≤ 1/1000 ∧
        |(23 : ℚ)/60 - 383/1000| ≤ 1/1000) :=
  ⟨by decide,
    soft_vote_mean_argmax (fun _ : Unit => ([9/10, 1/20, 1/20] : List ℚ))
      (fun _ => [1/10, 8/10, 1/10]) (fun _ => [0, 0, 1]) () 3 (by decide)⟩

/-! ## Ensemble training (source lines 82–94)

Line 89 passes `svm.best_estimator_` — the already-fitted winner of the
grid search — as a constituent, next to the unfitted LDA and GaussianNB
instances; line 94 calls `ensemble_model.fit(X_train, y_train)`.
Modelled from the spec and sklearn's documented `VotingClassifier.fit`
contract ("clones of those original estimators … will be fitted on `X`"):
fitting the ensemble clones every constituent — the clone keeps only the
hyperparameters, dropping any fitted state — and trains each clone on the
ensemble's training data. -/

/-- An estimator: hyperparameters `hyper` plus learned state `fitted`
(`none` while untrained). -/
structure Estimator (H S : Type) where
  hyper : H
  fitted : Option S
deriving DecidableEq

/-- Model of `sklearn.base.clone`: a fresh unfitted estimator with the same
hyperparameters. -/
def cloneEst {H S : Type} (e : Estimator H S) : Estimator H S :=
  ⟨e.hyper, none⟩

/-- Fit one estimator on training data `d`: learned state comes from the
training function applied to its hyperparameters and `d`. -/
def fitEst {H S Data : Type} (trainFn : H → Data → S)
    (e : Estimator H S) (d : Data) : Estimator H S :=
  ⟨e.hyper, some (trainFn e.hyper d)⟩

/-- Model of `VotingClassifier.fit`: fits a clone of every constituent estimator on
the ensemble's training data. -/
def votingFit {H S Data : Type} (trainFn : H → Data → S)
    (ests : List (Estimator H S)) (d : Data) : List (Estimator H S) :=
  ests.map (fun e => fitEst trainFn (cloneEst e) d)

/-- Claim C2 counterexample: the already-tuned constituent is *not* reused
as-is inside the trained ensemble.  With training function
`fun h d => h + d`, a tuned estimator `⟨5, some 99⟩` (learned state `99`
from the grid search) placed between two unfitted constituents, and
ensemble training data `1`, the ensemble's middle slot comes out as
`⟨5, some 6⟩`: the learned state was recomputed from the ensemble's data,
so it differs from the tuned instance's state `99`. -/
theorem tuned_estimator_not_reused :
    (votingFit (fun h d => h + d)
        [⟨1, none⟩, ⟨5, some 99⟩, ⟨2, none⟩] 1).getD 1 ⟨0, none⟩
      ≠ (⟨5, some 99⟩ : Estimator ℕ ℕ) := by
  decide

/-- Claim C2 (amended): training the ensemble does not mutate the tuned
classifier instance (a clone is fitted, and the embedding is purely
functional), but the ensemble does not reuse its learned parameters:
`VotingClassifier.fit` fits a clone of every constituent — the tuned one
included — on the scaled train split, keeping each constituent's
hyperparameters and replacing any previous learned state with the result
of training on that data. -/
theorem voting_fit_clones_every_constituent {H S Data : Type}
    (trainFn : H → Data → S) (ests : List (Estimator H S)) (d : Data) :
    List.Forall₂
      (fun e e' => e'.hyper = e.hyper ∧ e'.fitted = some (trainFn e.hyper d))
      ests (votingFit trainFn ests d) := by
  induction ests with
  | nil => exact List.Forall₂.nil
  | cons e es ih => exact List.Forall₂.cons ⟨rfl, rfl⟩ ih

/-! ## Partitioner (source line 66)

`train_test_split(X, y, test_size=0.3, random_state=42)`.  Modelled from
the spec: the seeded numpy permutation behind `train_test_split` is not
part of the repository; it is modelled as a deterministic Fisher-Yates
style permutation driven by a linear congruential generator seeded with
`random_state`.  As in sklearn's `ShuffleSplit`, the test part is the
first `ceil(0.3 * n)` entries of the permuted index list and the train
part is the rest. -/

/-- One step of the modelled pseudo-random number generator. -/
def lcgNext (s : ℕ) : ℕ :=
  (s * 1103515245 + 12345) % 2147483648

/-- Fisher-Yates style shuffle: repeatedly draw the element at a
pseudo-random position; `fuel` bounds the recursion. -/
def shuffleGo (fuel s : ℕ) (l : List ℕ) : List ℕ :=
  match fuel with
  | 0 => l
  | Nat.succ f =>
    if l.length = 0 then l
    else
      l.getD (s % l.length) 0
        :: shuffleGo f (lcgNext s) (l.eraseIdx (s % l.length))

/-- Seeded permutation of an index list. -/
def shuffle (s : ℕ) (l : List ℕ) : List ℕ :=
  shuffleGo l.length s l

/-- Size of the test part for `test_size=0.3`: `ceil(0.3 * n)`, as in sklearn. -/
def nTest30 (n : ℕ) : ℕ :=
  (3 * n + 9) / 10

/-- Model of `train_test_split` on index sets: permute `0, …, n-1` with the seeded
shuffle, test = first `nTest30 n` indices, train = the rest. -/
def trainTestSplitIdx (n seed : ℕ) : List ℕ × List ℕ :=
  ((shuffle seed (List.range n)).drop (nTest30 n),
    (shuffle seed (List.range n)).take (nTest30 n))

/-- Model of `train_test_split` on a dataset: the rows selected by the index
split. -/
def trainTestSplit {α : Type} (dflt : α) (ds : List α) (seed : ℕ) :
    List α × List α :=
  ((trainTestSplitIdx ds.length seed).1.map (fun i => ds.getD i dflt),
    (trainTestSplitIdx ds.length seed).2.map (fun i => ds.getD i dflt))

/-! ### Lemmas about the partitioner -/

theorem cons_getD_eraseIdx_perm {l : List ℕ} {i : ℕ} (hi : i < l.length) :
    List.Perm (l.getD i 0 :: l.eraseIdx i) l := by
  rw [List.getD_eq_getElem l 0 hi]
  exact (List.Perm.cons _ (List.erase_getElem hi).symm).trans
    (List.perm_cons_erase (List.getElem_mem hi)).symm

theorem shuffleGo_perm (fuel : ℕ) : ∀ (s : ℕ) (l : List ℕ),
    List.Perm (shuffleGo fuel s l) l := by
  induction fuel with
  | zero => intro s l; exact List.Perm.refl l
  | succ f ih =>
    intro s l
    by_cases h0 : l.length = 0
    · simp [shuffleGo, h0]
    · have hpos : 0 < l.length := Nat.pos_of_ne_zero h0
      have hi : s % l.length < l.length := Nat.mod_lt _ hpos
      have heq : shuffleGo (f + 1) s l
          = l.getD (s % l.length) 0
              :: shuffleGo f (lcgNext s) (l.eraseIdx (s % l.length)) := by
        simp [shuffleGo, h0]
      rw [heq]
      exact (List.Perm.cons _ (ih _ _)).trans (cons_getD_eraseIdx_perm hi)

theorem shuffle_perm_range (seed n : ℕ) :
    List.Perm (shuffle seed (List.range n)) (List.range n) :=
  shuffleGo_perm _ _ _

/-- Claim C3: the partition satisfies
`len(train) + len(test) = len(dataset)`, the train and test index sets are
disjoint, together they are exactly the indices `0, …, n-1` with no
duplication or loss, and equal dataset, (fixed 0.3) test fraction and seed
give the identical partition. -/
theorem split_partition_invariants (α : Type) (dflt : α) (ds : List α)
    (seed : ℕ) :
    ((trainTestSplit dflt ds seed).1.length
        + (trainTestSplit dflt ds seed).2.length = ds.length) ∧
      List.Disjoint (trainTestSplitIdx ds.length seed).1
        (trainTestSplitIdx ds.length seed).2 ∧
      List.Perm ((trainTestSplitIdx ds.length seed).1
          ++ (trainTestSplitIdx ds.length seed).2) (List.range ds.length) ∧
      (∀ (ds' : List α) (seed' : ℕ), ds' = ds → seed' = seed →
        trainTestSplit dflt ds' seed' = trainTestSplit dflt ds seed) := by
  have hperm : List.Perm (shuffle seed (List.range ds.length))
      (List.range ds.length) :=
    shuffle_perm_range seed ds.length
  have hlen : (shuffle seed (List.range ds.length)).length = ds.length := by
    rw [hperm.length_eq, List.length_range]
  have hnodup : (shuffle seed (List.range ds.length)).Nodup :=
    hperm.nodup_iff.mpr (List.nodup_range _)
  have hle : nTest30 ds.length ≤ ds.length := by
    unfold nTest30
    omega
  refine ⟨?_, ?_, ?_, ?_⟩
  · simp only [trainTestSplit, trainTestSplitIdx, List.length_map,
      List.length_drop, List.length_take, hlen]
    omega
  · simp only [trainTestSplitIdx]
    exact (List.disjoint_take_drop hnodup (le_refl _)).symm
  · simp only [trainTestSplitIdx]
    refine List.Perm.trans List.perm_append_comm ?_
    rw [List.take_append_drop]
    exact hperm
  · intro ds' seed' hds hseed
    rw [hds, hseed]

/-! ## Feature scaler (source lines 69–71)

`scaler = StandardScaler(); X_train = scaler.fit_transform(X_train);
X_test = scaler.transform(X_test)`.  Modelled from the spec:
`StandardScaler` is a library class.  `fit` stores the per-dimension mean
and standard deviation of the train split (population statistics); a zero
standard deviation is replaced by `1` (sklearn's
`_handle_zeros_in_scale`, the spec's "safe non-zero divisor").  Since a
standard deviation is generally irrational, the fitted scale is
characterized by its square, keeping the embedding over `ℚ`. -/

/-- The values of feature dimension `j` down a matrix of row vectors. -/
def colVals (X : List (List ℚ)) (j : ℕ) : List ℚ :=
  X.map (fun r => r.getD j 0)

/-- Arithmetic mean of a list (`0` for the empty list, by `0 / 0 = 0`). -/
def listMean (l : List ℚ) : ℚ :=
  l.sum / (l.length : ℚ)

/-- Population variance of a list (`ddof = 0`, numpy's default). -/
def listVar (l : List ℚ) : ℚ :=
  ((l.map (fun x => (x - listMean l) ^ 2)).sum) / (l.length : ℚ)

/-- Fitted scaler state: per-dimension mean and scale (divisor). -/
structure ScalerState where
  mean : ℕ → ℚ
  scale : ℕ → ℚ

/-- Specification of `StandardScaler.fit` on the train matrix, for dimensions `< dim`:
the stored mean is the column mean, and the stored scale is positive with
square equal to the column variance — except that a zero-variance column
gets scale `1`. -/
def fitSpec (dim : ℕ) (X : List (List ℚ)) (st : ScalerState) : Prop :=
  ∀ j, j < dim →
    st.mean j = listMean (colVals X j) ∧ 0 < st.scale j ∧
      st.scale j ^ 2
        = (if listVar (colVals X j) = 0 then 1 else listVar (colVals X j))

/-- Model of `StandardScaler.transform` on one row: `(x - mean_j) / scale_j` per
dimension, `j` counting from the given offset. -/
def transformRowGo (st : ScalerState) : ℕ → List ℚ → List ℚ
  | _, [] => []
  | j, x :: xs => (x - st.mean j) / st.scale j :: transformRowGo st (j + 1) xs

/-- Model of `StandardScaler.transform` on a matrix of row vectors. -/
def scalerTransform (st : ScalerState) (X : List (List ℚ)) : List (List ℚ) :=
  X.map (transformRowGo st 0)

/-- Lines 70–71: the train split is transformed with the state fitted on
it, and the *same* state — not a refit — transforms the test split. -/
def scaleSplit (st : ScalerState) (Xtr Xte : List (List ℚ)) :
    List (List ℚ) × List (List ℚ) :=
  (scalerTransform st Xtr, scalerTransform st Xte)

/-! ### Lemmas about the scaler -/

theorem transformRowGo_getD (st : ScalerState) (row : List ℚ) :
    ∀ (j0 j : ℕ), j < row.length →
      (transformRowGo st j0 row).getD j 0
        = (row.getD j 0 - st.mean (j0 + j)) / st.scale (j0 + j) := by
  induction row with
  | nil => intro j0 j hj; exact absurd hj (Nat.not_lt_zero j)
  | cons x xs ih =>
    intro j0 j hj
    cases j with
    | zero => simp [transformRowGo]
    | succ j' =>
      have h' : j' < xs.length := Nat.lt_of_succ_lt_succ hj
      have := ih (j0 + 1) j' h'
      rw [transformRowGo, List.getD_cons_succ, List.getD_cons_succ, this]
      have harith : j0 + 1 + j' = j0 + (j' + 1) := by omega
      rw [harith]

theorem colVals_scalerTransform {dim : ℕ} {X : List (List ℚ)}
    (st : ScalerState) (hrows : ∀ r ∈ X, r.length = dim) {j : ℕ}
    (hj : j < dim) :
    colVals (scalerTransform st X) j
      = (colVals X j).map (fun x => (x - st.mean j) / st.scale j) := by
  unfold colVals scalerTransform
  rw [List.map_map, List.map_map]
  refine List.map_congr_left ?_
  intro r hr
  have hlen : j < r.length := by rw [hrows r hr]; exact hj
  have := transformRowGo_getD st r 0 j hlen
  simpa using this

theorem sum_map_center (l : List ℚ) (a : ℚ) :
    (l.map (fun x => x - a)).sum = l.sum - (l.length : ℚ) * a := by
  induction l with
  | nil => simp
  | cons x xs ih =>
    simp only [List.map_cons, List.sum_cons, ih, List.length_cons]
    push_cast
    ring

theorem listMean_affine (l : List ℚ) (a s : ℚ) :
    listMean (l.map (fun x => (x - a) / s))
      = (l.sum - (l.length : ℚ) * a) * s⁻¹ / (l.length : ℚ) := by
  unfold listMean
  rw [List.length_map]
  congr 1
  simp only [div_eq_mul_inv]
  rw [List.sum_map_mul_right, sum_map_center]

theorem listMean_transformed (l : List ℚ) (s : ℚ) :
    listMean (l.map (fun x => (x - listMean l) / s)) = 0 := by
  rw [listMean_affine]
  by_cases hn : (l.length : ℚ) = 0
  · rw [hn]
    simp
  · have hz : l.sum - (l.length : ℚ) * listMean l = 0 := by
      unfold listMean
      rw [mul_div_cancel₀ _ hn]
      ring
    rw [hz]
    simp

theorem listVar_transformed (l : List ℚ) (s : ℚ) :
    listVar (l.map (fun x => (x - listMean l) / s))
      = listVar l / s ^ 2 := by
  unfold listVar
  rw [listMean_transformed l s, List.length_map]
  have hmap : (l.map (fun x => (x - listMean l) / s)).map
        (fun x => (x - 0) ^ 2)
      = l.map (fun x => (x - listMean l) ^ 2 * (s ^ 2)⁻¹) := by
    rw [List.map_map]
    refine List.map_congr_left (fun x _ => ?_)
    simp only [Function.comp_apply, sub_zero, div_pow]
    rw [div_eq_mul_inv]
  rw [hmap, List.sum_map_mul_right, div_eq_mul_inv, div_eq_mul_inv,
    div_eq_mul_inv]
  ring

/-- Claim C4: the scaler statistics come from the train split only
(`fitSpec` constrains the state by `Xtr` alone) and the same fitted state
is applied unchanged to the test split; after transforming the train
split, every dimension has mean exactly `0` and every dimension of
non-zero original variance has variance exactly `1` (the exact-rational
form of "std ≈ 1"). -/
theorem scaler_train_stats_testlift (dim : ℕ) (Xtr Xte : List (List ℚ))
    (st : ScalerState) (hfit : fitSpec dim Xtr st)
    (hrows : ∀ r ∈ Xtr, r.length = dim) :
    (∀ j, j < dim → listMean (colVals (scaleSplit st Xtr Xte).1 j) = 0) ∧
      (∀ j, j < dim → listVar (colVals Xtr j) ≠ 0 →
        listVar (colVals (scaleSplit st Xtr Xte).1 j) = 1) ∧
      (scaleSplit st Xtr Xte).2 = scalerTransform st Xte := by
  refine ⟨?_, ?_, rfl⟩
  · intro j hj
    obtain ⟨hm, hpos, hsq⟩ := hfit j hj
    show listMean (colVals (scalerTransform st Xtr) j) = 0
    rw [colVals_scalerTransform st hrows hj, hm]
    exact listMean_transformed _ _
  · intro j hj hvar
    obtain ⟨hm, hpos, hsq⟩ := hfit j hj
    show listVar (colVals (scalerTransform st Xtr) j) = 1
    rw [colVals_scalerTransform st hrows hj, hm, listVar_transformed, hsq,
      if_neg hvar]
    exact div_self hvar

theorem scaler_train_stats_testlift_witness :
    fitSpec 2 [[1, 3], [3, 7]]
        ⟨fun j => if j = 0 then 2 else 5, fun j => if j = 0 then 1 else 2⟩ ∧
      (∀ r ∈ [[(1 : ℚ), 3], [3, 7]], r.length = 2) ∧
      ((∀ j, j < 2 →
          listMean (colVals
            (scaleSplit
              ⟨fun j => if j = 0 then 2 else 5, fun j => if j = 0 then 1 else 2⟩
              [[1, 3], [3, 7]] [[0, 1]]).1 j) = 0) ∧
        (∀ j, j < 2 → listVar (colVals [[(1 : ℚ), 3], [3, 7]] j) ≠ 0 →
          listVar (colVals
            (scaleSplit
              ⟨fun j => if j = 0 then 2 else 5, fun j => if j = 0 then 1 else 2⟩
              [[1, 3], [3, 7]] [[0, 1]]).1 j) = 1) ∧
        (scaleSplit
            ⟨fun j => if j = 0 then 2 else 5, fun j => if j = 0 then 1 else 2⟩
            [[1, 3], [3, 7]] [[0, 1]]).2
          = scalerTransform
              ⟨fun j => if j = 0 then 2 else 5, fun j => if j = 0 then 1 else 2⟩
              [[0, 1]]) := by
  have hfit : fitSpec 2 [[1, 3], [3, 7]]
      ⟨fun j => if j = 0 then 2 else 5, fun j => if j = 0 then 1 else 2⟩ := by
    intro j hj
    interval_cases j <;>
      exact ⟨by norm_num [listMean, colVals],
        by norm_num,
        by norm_num [listVar, listMean, colVals]⟩
  have hrows : ∀ r ∈ [[(1 : ℚ), 3], [3, 7]], r.length = 2 := by
    intro r hr
    rcases List.mem_cons.mp hr with h | h
    · rw [h]; rfl
    · rcases List.mem_cons.mp h with h' | h'
      · rw [h']; rfl
      · exact absurd h' (List.not_mem_nil r)
  exact ⟨hfit, hrows,
    scaler_train_stats_testlift 2 [[1, 3], [3, 7]] [[0, 1]] _ hfit hrows⟩

/-- Claim C5: for every fitted scaler, the per-dimension divisor used by
`transform` is never zero — a dimension whose fitted standard deviation is
exactly zero gets divisor `1` — so no transformed value arises from a
division by zero. -/
theorem scaler_safe_divisor (dim : ℕ) (X : List (List ℚ))
    (st : ScalerState) (hfit : fitSpec dim X st) :
    ∀ j, j < dim → st.scale j ≠ 0 ∧
      (listVar (colVals X j) = 0 → st.scale j = 1) := by
  intro j hj
  obtain ⟨hm, hpos, hsq⟩ := hfit j hj
  refine ⟨ne_of_gt hpos, fun hv => ?_⟩
  rw [hv, if_pos rfl] at hsq
  have hfact : (st.scale j - 1) * (st.scale j + 1) = 0 := by
    have h0 : st.scale j ^ 2 - 1 = 0 := by rw [hsq]; ring
    calc (st.scale j - 1) * (st.scale j + 1) = st.scale j ^ 2 - 1 := by ring
      _ = 0 := h0
  rcases mul_eq_zero.mp hfact with h1 | h2
  · linarith
  · linarith

theorem scaler_safe_divisor_witness :
    fitSpec 1 [[5], [5]] ⟨fun _ => 5, fun _ => 1⟩ ∧
      (∀ j, j < 1 →
        (ScalerState.mk (fun _ => 5) (fun _ => 1)).scale j ≠ 0 ∧
          (listVar (colVals [[(5 : ℚ)], [5]] j) = 0 →
            (ScalerState.mk (fun _ => 5) (fun _ => 1)).scale j = 1)) := by
  have hfit : fitSpec 1 [[5], [5]] ⟨fun _ => 5, fun _ => 1⟩ := by
    intro j hj
    interval_cases j
    exact ⟨by norm_num [listMean, colVals],
      by norm_num,
      by norm_num [listVar, listMean, colVals]⟩
  exact ⟨hfit, scaler_safe_divisor 1 [[5], [5]] _ hfit⟩

/-! ## Hyperparameter tuner (source lines 81–84)

`GridSearchCV(SVC(probability=True), param_grid, refit=True, cv=5)` fitted
on `(X_train, y_train)`.  Modelled from the spec (§4.6): for each
hyperparameter combination, k-fold cross-validation on the train split
only — contiguous folds, the first `n mod k` folds one element larger, as
in sklearn's `KFold` — scoring each fold by classification accuracy;
the combination with the highest mean score wins, earliest grid entry on
ties; with `refit=True` the winner is retrained on the whole train
split. -/

/-- The k folds of a dataset: for each fold, `(validation part, training
remainder)`. -/
def cvFolds {X : Type} (k : ℕ) (data : List (X × ℕ)) :
    List (List (X × ℕ) × List (X × ℕ)) :=
  (List.range k).map (fun i =>
    let base := data.length / k
    let extra := data.length % k
    let start := i * base + min i extra
    let sz := base + (if i < extra then 1 else 0)
    ((data.drop start).take sz, data.take start ++ data.drop (start + sz)))

/-- Classification accuracy of a fitted model on one validation fold. -/
def foldAccuracy {M X : Type} (predict : M → X → ℕ) (m : M)
    (fold : List (X × ℕ)) : ℚ :=
  accuracy (fold.map Prod.snd) (fold.map (fun s => predict m s.1))

/-- Mean cross-validation accuracy of one hyperparameter combination:
train on each fold's remainder, score on its validation part, average
over the `k` folds. -/
def cvMeanScore {P M X : Type} (k : ℕ) (fitFn : P → List (X × ℕ) → M)
    (predict : M → X → ℕ) (p : P) (data : List (X × ℕ)) : ℚ :=
  ((cvFolds k data).map
      (fun fr => foldAccuracy predict (fitFn p fr.2) fr.1)).sum / (k : ℚ)

/-- First grid entry attaining the maximal score (`none` on an empty
grid): a later entry displaces the current best only when strictly
better. -/
def selectBest {P : Type} (score : P → ℚ) : List P → Option P
  | [] => none
  | p :: ps =>
    match selectBest score ps with
    | none => some p
    | some q => if score p < score q then some q else some p

/-- Model of `GridSearchCV(..., refit=True, cv=k).fit(data)`: pick the best-scoring
combination by mean CV accuracy, then retrain it on the whole train
split. -/
def gridSearchFit {P M X : Type} (grid : List P) (k : ℕ)
    (fitFn : P → List (X × ℕ) → M) (predict : M → X → ℕ)
    (data : List (X × ℕ)) : Option (P × M) :=
  (selectBest (fun p => cvMeanScore k fitFn predict p data) grid).map
    (fun p => (p, fitFn p data))

/-! ### Lemmas about the tuner -/

theorem selectBest_spec {P : Type} (score : P → ℚ) (grid : List P)
    (h : grid ≠ []) :
    ∃ p, selectBest score grid = some p ∧ p ∈ grid ∧
      ∀ q ∈ grid, score q ≤ score p := by
  induction grid with
  | nil => exact absurd rfl h
  | cons p ps ih =>
    by_cases hps : ps = []
    · subst hps
      refine ⟨p, by simp [selectBest], List.mem_cons_self p _, ?_⟩
      intro q hq
      rcases List.mem_cons.mp hq with hq1 | hq1
      · rw [hq1]
      · exact absurd hq1 (List.not_mem_nil q)
    · obtain ⟨b, hb, hbmem, hbmax⟩ := ih hps
      by_cases hcmp : score p < score b
      · refine ⟨b, ?_, List.mem_cons_of_mem p hbmem, ?_⟩
        · simp only [selectBest, hb]
          rw [if_pos hcmp]
        · intro q hq
          rcases List.mem_cons.mp hq with hq1 | hq1
          · rw [hq1]; exact le_of_lt hcmp
          · exact hbmax q hq1
      · refine ⟨p, ?_, List.mem_cons_self p _, ?_⟩
        · simp only [selectBest, hb]
          rw [if_neg hcmp]
        · intro q hq
          rcases List.mem_cons.mp hq with hq1 | hq1
          · rw [hq1]
          · exact le_trans (hbmax q hq1) (not_lt.mp hcmp)

/-- Claim C6: on any non-empty finite grid, the tuner scores every
combination by k-fold cross-validation on the given train split, returns
a combination whose mean CV score is maximal over the whole grid, and the
returned classifier is that combination retrained on the whole train
split. -/
theorem grid_search_selects_best {P M X : Type} (grid : List P) (k : ℕ)
    (fitFn : P → List (X × ℕ) → M) (predict : M → X → ℕ)
    (data : List (X × ℕ)) (h : grid ≠ []) :
    ∃ p m, gridSearchFit grid k fitFn predict data = some (p, m) ∧
      p ∈ grid ∧
      (∀ q ∈ grid, cvMeanScore k fitFn predict q data
        ≤ cvMeanScore k fitFn predict p data) ∧
      m = fitFn p data := by
  obtain ⟨p, hp, hpmem, hpmax⟩ :=
    selectBest_spec (fun p => cvMeanScore k fitFn predict p data) grid h
  refine ⟨p, fitFn p data, ?_, hpmem, hpmax, rfl⟩
  rw [gridSearchFit, hp]
  rfl

theorem grid_search_selects_best_witness :
    ([0, 1] : List ℕ) ≠ [] ∧
      (∃ p m, gridSearchFit [0, 1] 2 (fun (p : ℕ) (_ : List (ℕ × ℕ)) => p)
            (fun m x => if m = 0 then 0 else x) [(0, 0), (1, 1)]
          = some (p, m) ∧
        p ∈ ([0, 1] : List ℕ) ∧
        (∀ q ∈ ([0, 1] : List ℕ),
          cvMeanScore 2 (fun (p : ℕ) (_ : List (ℕ × ℕ)) => p)
              (fun m x => if m = 0 then 0 else x) q [(0, 0), (1, 1)]
            ≤ cvMeanScore 2 (fun (p : ℕ) (_ : List (ℕ × ℕ)) => p)
                (fun m x => if m = 0 then 0 else x) p [(0, 0), (1, 1)]) ∧
        m = p) :=
  ⟨by decide,
    grid_search_selects_best [0, 1] 2 (fun p _ => p)
      (fun m x => if m = 0 then 0 else x) [(0, 0), (1, 1)] (by decide)⟩

end SkinDisease
